import Mathlib

/-!
Shallow embedding of the mensaLog repository (crwntec/mensaLog) used to check
the natural-language specification against the code.

The embedding covers:
* `app/parse.py` — `prettify_meal_str`, `extract_week_from_filename` and the
  week-number determination of `parse_xls`;
* `app/services/pdf_parser.py` — `parse_table`;
* `app/services/meal_intelligence.py` — `find_duplicates`, `_get_protein`,
  `merge_duplicates`, `find_similar_meal`, `find_top_similar_meals`,
  `load_cache`;
* `app/database.py` — the per-dish resolution step of `create_mealplan`.

Python strings are modelled as `List Char` where character-level operations
matter, and as `String` elsewhere.  Machine floats are modelled as `ℚ`.
The sentence-transformer encoder and the cosine-similarity function are
external numeric components (the cosine formula involves an irrational
square root); they are modelled as explicit function parameters `encode` and
`sim`, so every theorem quantifies over them and only assumes the properties
the code guarantees (e.g. self-similarity `1` for the encoder's unit
vectors) where needed.
-/

namespace MensaLog

/-! ## Python string primitives -/

/-- The ASCII whitespace characters recognised by Python's `str.strip()` and
`str.split()` (we model the ASCII fragment; the menu data is ASCII plus
umlauts, none of which are whitespace). -/
def pyIsSpace (c : Char) : Bool :=
  c = ' ' || c = '\t' || c = '\n' || c = '\r' || c = '\x0b' || c = '\x0c'

/-- Python `str.strip()` on a character list. -/
def pyStrip (s : List Char) : List Char :=
  (((s.dropWhile pyIsSpace).reverse).dropWhile pyIsSpace).reverse

/-- Python `str.strip()` on a `String`. -/
def pyStripS (s : String) : String :=
  String.mk (pyStrip s.toList)

/-- `needle` occurs at the start of `haystack`. -/
def leadsWith : List Char → List Char → Bool
  | [], _ => true
  | _ :: _, [] => false
  | c :: cs, d :: ds => c = d && leadsWith cs ds

/-- Python's `in` operator on strings: `needle` occurs contiguously somewhere
in `haystack`. -/
def occursIn (needle : List Char) : List Char → Bool
  | [] => leadsWith needle []
  | s@(_ :: t) => leadsWith needle s || occursIn needle t

/-- Python `str.split()` (split on whitespace runs, dropping empty parts). -/
def pySplit : List Char → List (List Char)
  | [] => []
  | c :: t =>
    if pyIsSpace c then pySplit t
    else
      match pySplit t with
      | [] => [[c]]
      | w :: ws => if pyIsSpace (t.headD ' ') then [c] :: w :: ws else (c :: w) :: ws

/-- ASCII decimal digit (Python's `\d` on this data). -/
def isDigitC (c : Char) : Bool := '0' ≤ c && c ≤ '9'

/-- Numeric value of a list of decimal digits. -/
def digitsToNat (l : List Char) : Nat :=
  l.foldl (fun n c => n * 10 + (c.toNat - '0'.toNat)) 0

/-- Python `int(token)` on a whitespace-free token: optional sign followed by
at least one digit (we do not model the underscore digit separators, which do
not occur in this data). -/
def pyIntOfToken (t : List Char) : Option Int :=
  match t with
  | [] => none
  | '+' :: ds => if ds ≠ [] ∧ ds.all isDigitC then some (digitsToNat ds) else none
  | '-' :: ds => if ds ≠ [] ∧ ds.all isDigitC then some (-(digitsToNat ds : Int)) else none
  | ds => if ds.all isDigitC then some (digitsToNat ds) else none

/-! ## `app/parse.py`: `prettify_meal_str` -/

/-- Index of the last `')'` in a character list, if any. -/
def lastCloseIdx : List Char → Option Nat
  | [] => none
  | c :: t =>
    match lastCloseIdx t with
    | some k => some (k + 1)
    | none => if c = ')' then some 0 else none

/-- Python `re.sub(r'\([^ ]*\)', '', s)`: scan left to right; at each `'('`
the greedy `[^ ]*` runs to the end of the following space-free block and
backtracks to the last `')'` in it; if one exists the whole match is deleted
and scanning resumes after it, otherwise the `'('` is kept and scanning
moves on.  Structural recursion on a fuel argument (each step consumes at
least one character, so `fuel = length` suffices; on empty fuel the rest is
returned unscanned, a branch that is unreachable from `pySubParens`). -/
def pySubParensF : Nat → List Char → List Char
  | 0, l => l
  | _ + 1, [] => []
  | fuel + 1, c :: rest =>
    if c = '(' then
      let run := rest.takeWhile (fun d => d ≠ ' ')
      match lastCloseIdx run with
      | some k => pySubParensF fuel (rest.drop (k + 1))
      | none => c :: pySubParensF fuel rest
    else c :: pySubParensF fuel rest

/-- Python `re.sub(r'\([^ ]*\)', '', s)`. -/
def pySubParens (l : List Char) : List Char :=
  pySubParensF l.length l

/-- `prettify_meal_str` from `app/parse.py`:
`stage1 = str.strip().replace("\n", " ").replace("\r", "")` followed by
`stage2 = re.sub(r'\([^ ]*\)', '', stage1)`. -/
def prettify_meal_str (s : List Char) : List Char :=
  let stage1 := ((pyStrip s).map (fun c => if c = '\n' then ' ' else c)).filter
    (fun c => c ≠ '\r')
  pySubParens stage1

/-! ## `app/parse.py`: week-number determination (`extract_week_from_filename`
and the in-sheet marker logic of `parse_xls`) -/

/-- Try `re.search(r'KW\s*(\d+)', s, re.IGNORECASE)` at the current position:
the literal `KW` (case-insensitive), optional whitespace, then a greedy
nonempty digit run. -/
def matchKWAt (s : List Char) : Option Nat :=
  match s with
  | k :: w :: rest =>
    if k.toUpper = 'K' && w.toUpper = 'W' then
      let ds := (rest.dropWhile pyIsSpace).takeWhile isDigitC
      if ds ≠ [] then some (digitsToNat ds) else none
    else none
  | _ => none

/-- Leftmost match of `KW\s*(\d+)` (case-insensitive). -/
def searchKW : List Char → Option Nat
  | [] => none
  | s@(_ :: t) =>
    match matchKWAt s with
    | some n => some n
    | none => searchKW t

/-- Try `re.search(r'Mensa\s+(\d+)', s, re.IGNORECASE)` at the current
position: the literal `Mensa` (case-insensitive), at least one whitespace
character, then a greedy nonempty digit run. -/
def matchMensaAt (s : List Char) : Option Nat :=
  match s with
  | m :: e :: n :: sa :: a :: rest =>
    if m.toUpper = 'M' && e.toUpper = 'E' && n.toUpper = 'N' && sa.toUpper = 'S'
        && a.toUpper = 'A' then
      match rest with
      | c :: rest2 =>
        if pyIsSpace c then
          let ds := (rest2.dropWhile pyIsSpace).takeWhile isDigitC
          if ds ≠ [] then some (digitsToNat ds) else none
        else none
      | [] => none
    else none
  | _ => none

/-- Leftmost match of `Mensa\s+(\d+)` (case-insensitive). -/
def searchMensa : List Char → Option Nat
  | [] => none
  | s@(_ :: t) =>
    match matchMensaAt s with
    | some n => some n
    | none => searchMensa t

/-- Leftmost match of `(\d+)`: the first maximal digit run. -/
def searchFirstInt : List Char → Option Nat
  | [] => none
  | c :: t =>
    if isDigitC c then some (digitsToNat ((c :: t).takeWhile isDigitC))
    else searchFirstInt t

/-- `extract_week_from_filename` from `app/parse.py`: try
`KW\s*(\d+)`, then `Mensa\s+(\d+)`, then any `(\d+)`; `None` if all fail. -/
def extract_week_from_filename (filename : List Char) : Option Nat :=
  match searchKW filename with
  | some n => some n
  | none =>
    match searchMensa filename with
    | some n => some n
    | none => searchFirstInt filename

/-- The in-sheet week marker of `parse_xls`: cell `(2, 0)` of the sheet,
modelled as `none` when the cell is missing or not a string (both make the
guarded block fall through).  The code runs
`if isinstance(week_cell, str) and 'KW' in week_cell.upper():
  week = int(week_cell.split()[-1])` inside a `try`, so an unparsable last
token (or an empty split) also leaves the week undetermined. -/
def sheetWeek (weekCell : Option String) : Option Int :=
  match weekCell with
  | none => none
  | some s =>
    if occursIn ['K', 'W'] (s.toList.map Char.toUpper) then
      match (pySplit s.toList).getLast? with
      | some tok => pyIntOfToken tok
      | none => none
    else none

/-- The week-number determination of `parse_xls` in `app/parse.py`: the
in-sheet marker first, then `extract_week_from_filename`; if both fail it
raises `ValueError` before any schedule is built. -/
def parseXlsWeek (weekCell : Option String) (filename : String) : Except String Int :=
  let week : Option Int :=
    match sheetWeek weekCell with
    | some n => some n
    | none => (extract_week_from_filename filename.toList).map Int.ofNat
  match week with
  | some n => Except.ok n
  | none => Except.error "Could not determine week number"

/-! ## `app/services/pdf_parser.py`: `parse_table`

A pdfplumber table is a list of rows of optional strings.  A cell is
"truthy" when it is present and nonempty. -/

/-- A pdfplumber table cell. -/
abbrev Cell := Option String

/-- A pdfplumber table. -/
abbrev Table := List (List Cell)

/-- Python truthiness of a cell. -/
def cellTruthy (c : Cell) : Bool :=
  match c with
  | some s => !s.isEmpty
  | none => false

/-- String content of a cell (`""` for `None`; `str(cell)` on a string cell
is the cell itself). -/
def cellStr (c : Cell) : String :=
  match c with
  | some s => s
  | none => ""

/-- The five German weekday names of the header-row regex. -/
def weekdayNames : List String :=
  ["Montag", "Dienstag", "Mittwoch", "Donnerstag", "Freitag"]

/-- A header row contains at least one weekday name as a substring of a
truthy cell (`any(day in str(cell) ... for cell in row if cell)`). -/
def rowHasWeekday (row : List Cell) : Bool :=
  row.any (fun c => cellTruthy c &&
    weekdayNames.any (fun d => occursIn d.toList (cellStr c).toList))

/-- Index of the first row containing a weekday name, as in `parse_table`. -/
def findHeaderRow (table : Table) : Option Nat :=
  table.findIdx? rowHasWeekday

/-- Leftmost match of `(Montag|Dienstag|Mittwoch|Donnerstag|Freitag)`. -/
def findFirstWeekday : List Char → Option String
  | [] => none
  | s@(_ :: t) =>
    match weekdayNames.find? (fun d => leadsWith d.toList s) with
    | some d => some d
    | none => findFirstWeekday t

/-- Try `\d{2}\.\d{2}\.\d{2,4}` at the current position (greedy year run of
up to four digits). -/
def matchDateAt (s : List Char) : Option (List Char) :=
  match s with
  | d1 :: d2 :: '.' :: m1 :: m2 :: '.' :: rest =>
    if isDigitC d1 && isDigitC d2 && isDigitC m1 && isDigitC m2 then
      let ys := rest.takeWhile isDigitC
      let yn := min ys.length 4
      if 2 ≤ yn then
        some (d1 :: d2 :: '.' :: m1 :: m2 :: '.' :: ys.take yn)
      else none
    else none
  | _ => none

/-- Leftmost match of `(\d{2}\.\d{2}\.\d{2,4})`. -/
def findFirstDate : List Char → Option (List Char)
  | [] => none
  | s@(_ :: t) =>
    match matchDateAt s with
    | some m => some m
    | none => findFirstDate t

/-- Gregorian leap year (as validated by `datetime`). -/
def isLeapYear (y : Nat) : Bool :=
  y % 4 = 0 && (y % 100 ≠ 0 || y % 400 = 0)

/-- Number of days in a month, for `datetime`'s calendar validation. -/
def daysInMonth (y m : Nat) : Nat :=
  if m = 2 then (if isLeapYear y then 29 else 28)
  else if m = 4 || m = 6 || m = 9 || m = 11 then 30
  else 31

/-- `datetime.strptime(text, "%d.%m.%y")` on a `dd.mm.y+` candidate:
`%y` consumes at most two digits, so a third or fourth year digit is
"unconverted data" and raises `ValueError`; a two-digit year `00-68` maps to
`2000-2068` and `69-99` to `1969-1999`; day and month are validated against
the calendar.  Returns `(year, month, day)`. -/
def strptimeDMYy (s : List Char) : Except String (Nat × Nat × Nat) :=
  match s with
  | d1 :: d2 :: '.' :: m1 :: m2 :: '.' :: rest =>
    if isDigitC d1 && isDigitC d2 && isDigitC m1 && isDigitC m2 then
      match rest with
      | [y1, y2] =>
        if isDigitC y1 && isDigitC y2 then
          let day := digitsToNat [d1, d2]
          let month := digitsToNat [m1, m2]
          let yy := digitsToNat [y1, y2]
          let year := if yy ≤ 68 then 2000 + yy else 1900 + yy
          if 1 ≤ month ∧ month ≤ 12 ∧ 1 ≤ day ∧ day ≤ daysInMonth year month then
            Except.ok (year, month, day)
          else Except.error "ValueError: day is out of range for month"
        else Except.error "ValueError: time data does not match format"
      | _ => Except.error "ValueError: unconverted data remains"
    else Except.error "ValueError: time data does not match format"
  | _ => Except.error "ValueError: time data does not match format"

/-- Zero-padded two-digit decimal rendering. -/
def pad2 (n : Nat) : String :=
  if n < 10 then "0" ++ toString n else toString n

/-- `date.isoformat()`: `YYYY-MM-DD`. -/
def isoDate (y m d : Nat) : String :=
  toString y ++ "-" ++ pad2 m ++ "-" ++ pad2 d

/-- One `(weekday, date)` entry extracted from a header cell. -/
structure DayInfo where
  date : String
  weekday : String
deriving DecidableEq

/-- The header-cell loop of `parse_table`: skip falsy cells, replace
newlines with spaces, and for every cell with both a weekday match and a
date match run `strptime("%d.%m.%y")` (which can raise, aborting the whole
table) and record the ISO date with the matched weekday. -/
def headerDays : List Cell → Except String (List DayInfo)
  | [] => Except.ok []
  | c :: rest =>
    if cellTruthy c then
      let s := (cellStr c).toList.map (fun ch => if ch = '\n' then ' ' else ch)
      match findFirstWeekday s, findFirstDate s with
      | some wd, some ds =>
        match strptimeDMYy ds with
        | Except.ok (y, m, d) =>
          (headerDays rest).map (fun l => ⟨isoDate y m d, wd⟩ :: l)
        | Except.error e => Except.error e
      | _, _ => headerDays rest
    else headerDays rest

/-- Association-list update with Python `dict` semantics: overwrite in
place when the key is present, append otherwise. -/
def dictUpd [DecidableEq α] (k : α) (v : β) : List (α × β) → List (α × β)
  | [] => [(k, v)]
  | (k0, v0) :: t => if k0 = k then (k, v) :: t else (k0, v0) :: dictUpd k v t

/-- The category keywords of the PDF path (the fourth canonical category,
"Wok", is absent here). -/
def pdfCategories : List String := ["Tagesgericht", "Vegetarisch", "Pizza & Pasta"]

/-- `parse_table` result entry: ISO date mapped to weekday and the
category→text mapping. -/
abbrev PTResult := List (String × String × List (String × String))

/-- The mutable loop state of `parse_table`'s body scan. -/
structure PTState where
  result : PTResult
  current : List (List String)
  category : Option String
deriving DecidableEq

/-- The inner cell loop of a body row:
`for idx, cell in enumerate(row[1:]): if cell and idx < len(days):
current_meals[idx].append(str(cell).strip())`.  The accumulator has one slot
per day column, so the index bound is the accumulator's length. -/
def appendCells : List (List String) → List Cell → List (List String)
  | [], _ => []
  | c :: ct, [] => c :: ct
  | c :: ct, cell :: rest =>
    (if cellTruthy cell then c ++ [pyStripS (cellStr cell)] else c) :: appendCells ct rest

/-- The commit loop of a body row: for every day column with a nonempty
accumulator, store the space-join under the current category in that day's
meals. -/
def commitMeals (cat : String) : PTResult → List DayInfo → List (List String) → PTResult
  | res, [], _ => res
  | res, _, [] => res
  | res, d :: ds, texts :: ts =>
    let res1 :=
      if texts ≠ [] then
        res.map (fun e =>
          if e.1 = d.date then (e.1, e.2.1, dictUpd cat (String.intercalate " " texts) e.2.2)
          else e)
      else res
    commitMeals cat res1 ds ts

/-- Whether a body row's first cell contains one of the three category
keywords (`any(cat in first_cell for cat in [...])` over
`first_cell = str(row[0]).strip() if row[0] else ""`). -/
def rowFirstCell (row : List Cell) : String :=
  match row.head? with
  | some c => if cellTruthy c then pyStripS (cellStr c) else ""
  | none => ""

/-- One iteration of `parse_table`'s body loop over the rows below the
header: empty rows are skipped; a row whose first cell contains a category
keyword selects the first matching keyword and resets the accumulators;
then, if a category is selected, the row's remaining cells are appended
per day column, every nonempty accumulator is committed to that day's
meals, and the category is cleared. -/
def rowStep (days : List DayInfo) (st : PTState) (row : List Cell) : PTState :=
  if row.isEmpty then st
  else
    let first_cell := rowFirstCell row
    let st1 :=
      if pdfCategories.any (fun k => occursIn k.toList first_cell.toList) then
        { st with
          category := pdfCategories.find? (fun k => occursIn k.toList first_cell.toList),
          current := List.replicate days.length [] }
      else st
    match st1.category with
    | none => st1
    | some cat =>
      let cur2 := appendCells st1.current (row.drop 1)
      let res2 := commitMeals cat st1.result days cur2
      { result := res2, current := cur2, category := none }

/-- `parse_table` from `app/services/pdf_parser.py`.  Errors model the
exceptions that escape it (the `strptime` `ValueError` on header dates). -/
def parse_table (table : Table) : Except String PTResult :=
  if table.length < 2 then Except.ok []
  else
    match findHeaderRow table with
    | none => Except.ok []
    | some h =>
      match headerDays ((table.drop h).headD []) with
      | Except.error e => Except.error e
      | Except.ok days =>
        if days.isEmpty then Except.ok []
        else
          let res0 := days.foldl (fun r d => dictUpd d.date (d.weekday, ([] : List (String × String))) r) []
          let st0 : PTState := ⟨res0, List.replicate days.length [], none⟩
          Except.ok ((table.drop (h + 1)).foldl (rowStep days) st0).result

/-! ## `app/services/meal_intelligence.py`

Embedding vectors are rational-valued lists; the encoder and the cosine
similarity are explicit function parameters (see the header comment). -/

/-- An embedding vector. -/
abbrev Vec := List ℚ

/-- `PROTEIN_GROUPS` from `app/services/meal_intelligence.py`. -/
def PROTEIN_GROUPS : List (List String) :=
  [["rind", "rindfleisch"],
   ["schwein", "schweinefleisch"],
   ["hähnchen", "huhn", "geflügel", "pute"],
   ["lamm"],
   ["fisch", "lachs", "seelachs", "dorsch", "hoki"]]

/-- `SKIP_PAIRS` from `app/services/meal_intelligence.py`. -/
def SKIP_PAIRS : List String :=
  ["Chili sin Carne  mit Mais, Bohnen dazu Baguette",
   "Gemüsebratling mit Currysauce dazu Reis",
   "Gnocchi a1.c mit tomatisiertem Pfannengemüse und K",
   "Fischfrikadelle mit Joghurtremoulade dazu Kartoffe"]

/-- Python `str.lower()` (ASCII fragment; the keyword letters that matter
are ASCII or already lower-case umlauts). -/
def pyLower (s : List Char) : List Char := s.map Char.toLower

/-- `_get_protein`: index of the first protein group with a keyword
occurring in the lower-cased text, `none` if no group matches. -/
def _get_protein (text : String) : Option Nat :=
  PROTEIN_GROUPS.findIdx? (fun g => g.any (fun k => occursIn k.toList (pyLower text.toList)))

/-- The `meal` table: `(id, name)` rows (`name` is UNIQUE), plus the next
AUTOINCREMENT id. -/
structure DayRow where
  date : String
  weekday : String
  tagesgericht_id : Option Nat
  vegetarisch_id : Option Nat
  pizza_pasta_id : Option Nat
  wok_id : Option Nat
deriving DecidableEq

/-- The record store consumed by the resolver: the `meal` table and the
`day` table. -/
structure DB where
  meals : List (Nat × String)
  next_meal_id : Nat
  days : List DayRow
deriving DecidableEq

/-- `get_meal_name`: `SELECT name FROM meal WHERE id = ?`, `None` when the
row is missing. -/
def get_meal_name (db : DB) (meal_id : Nat) : Option String :=
  (db.meals.find? (fun p => p.1 = meal_id)).map (fun p => p.2)

/-- The in-memory state of `MealIntelligence`: the record store plus the
insertion-ordered `meal_embeddings` dict. -/
structure IntelState where
  db : DB
  embs : List (Nat × Vec)
deriving DecidableEq

/-- The double loop of `find_duplicates`: for every `i < j` in iteration
order, keep `(id_i, id_j, sim)` when the similarity is at least the
threshold. -/
def pairSims (sim : Vec → Vec → ℚ) (threshold : ℚ) : List (Nat × Vec) → List (Nat × Nat × ℚ)
  | [] => []
  | (i, v) :: rest =>
    (rest.filterMap (fun jw =>
      if threshold ≤ sim v jw.2 then some (i, jw.1, sim v jw.2) else none))
      ++ pairSims sim threshold rest

/-- Descending-by-score order used by `duplicates.sort(key=lambda x: x[2],
reverse=True)`. -/
def scoreGE (a b : Nat × Nat × ℚ) : Prop := b.2.2 ≤ a.2.2

instance : DecidableRel scoreGE := fun a b => inferInstanceAs (Decidable (b.2.2 ≤ a.2.2))

/-- `find_duplicates`: collect all pairs at or above the threshold, then
sort descending by score.  Python's `list.sort` is a stable sort and the
stable sort for a total preorder is unique, so it is modelled by
`List.insertionSort` (stable in Mathlib). -/
def find_duplicates (sim : Vec → Vec → ℚ) (embs : List (Nat × Vec)) (threshold : ℚ) :
    List (Nat × Nat × ℚ) :=
  List.insertionSort scoreGE (pairSims sim threshold embs)

/-- The protein guard of `merge_duplicates`: both texts map to a protein
group and the groups differ. -/
def proteinGuard (n1 n2 : String) : Bool :=
  match _get_protein n1, _get_protein n2 with
  | some a, some b => a ≠ b
  | _, _ => false

/-- The skip-list guard of `merge_duplicates`: either text is in
`SKIP_PAIRS`. -/
def skipGuard (n1 n2 : String) : Bool :=
  SKIP_PAIRS.contains n1 || SKIP_PAIRS.contains n2

/-- `UPDATE day SET col = canonical WHERE col = duplicate` on one column. -/
def rewriteCol (canonical dup : Nat) (c : Option Nat) : Option Nat :=
  if c = some dup then some canonical else c

/-- The four-column reference rewrite of one `day` row. -/
def rewriteDay (canonical dup : Nat) (d : DayRow) : DayRow :=
  { d with
    tagesgericht_id := rewriteCol canonical dup d.tagesgericht_id,
    vegetarisch_id := rewriteCol canonical dup d.vegetarisch_id,
    pizza_pasta_id := rewriteCol canonical dup d.pizza_pasta_id,
    wok_id := rewriteCol canonical dup d.wok_id }

/-- The mutation block of one non-dry merge: rewrite the four day-table
columns, delete the duplicate `meal` row, and delete its embedding (the
`del` is guarded by a membership test, i.e. all occurrences of the key are
removed). -/
def applyMergePair (st : IntelState) (id1 id2 : Nat) (n1 n2 : String) : IntelState :=
  let c := if n2.length ≤ n1.length then (id1, id2) else (id2, id1)
  { db := { st.db with
      days := st.db.days.map (rewriteDay c.1 c.2),
      meals := st.db.meals.filter (fun p => p.1 ≠ c.2) },
    embs := st.embs.filter (fun p => p.1 ≠ c.2) }

/-- One iteration of the `merge_duplicates` loop over a candidate pair.
The second component is `false` when the Python code would crash: a missing
meal name makes `_get_protein(None)` raise before any mutation of this
iteration. -/
def mergeStep (dry_run : Bool) (st : IntelState) (p : Nat × Nat × ℚ) : IntelState × Bool :=
  match get_meal_name st.db p.1, get_meal_name st.db p.2.1 with
  | some n1, some n2 =>
    if proteinGuard n1 n2 then (st, true)
    else if skipGuard n1 n2 then (st, true)
    else if dry_run then (st, true)
    else (applyMergePair st p.1 p.2.1 n1 n2, true)
  | _, _ => (st, false)

/-- The `merge_duplicates` loop; stops at the first crash, carrying the
state reached so far. -/
def mergeLoop (dry_run : Bool) : IntelState → List (Nat × Nat × ℚ) → IntelState × Bool
  | st, [] => (st, true)
  | st, p :: rest =>
    match mergeStep dry_run st p with
    | (st1, true) => mergeLoop dry_run st1 rest
    | (st1, false) => (st1, false)

/-- `merge_duplicates`: run the loop over `find_duplicates` output. -/
def merge_duplicates (sim : Vec → Vec → ℚ) (st : IntelState) (threshold : ℚ)
    (dry_run : Bool) : IntelState × Bool :=
  mergeLoop dry_run st (find_duplicates sim st.embs threshold)

/-- The dish-match threshold of `find_similar_meal` (default argument,
used by `create_mealplan`). -/
def MATCH_THRESHOLD : ℚ := 0.78

/-- The best-match loop of `find_similar_meal`: starting from
`(None, 0)`, replace the running best whenever a score is strictly
larger. -/
def bestLoop (sim : Vec → Vec → ℚ) (v : Vec) (l : List (Nat × Vec))
    (acc : Option Nat × ℚ) : Option Nat × ℚ :=
  l.foldl (fun a p => if a.2 < sim v p.2 then (some p.1, sim v p.2) else a) acc

/-- `find_similar_meal` at the default threshold `0.78`: `(None, 0)` on an
empty store; otherwise the best match, hidden behind `None` when its score
is below the threshold. -/
def find_similar_meal (sim : Vec → Vec → ℚ) (encode : String → Vec)
    (embs : List (Nat × Vec)) (meal_name : String) : Option Nat × ℚ :=
  if embs.isEmpty then (none, 0)
  else
    let r := bestLoop sim (encode meal_name) embs (none, 0)
    if MATCH_THRESHOLD ≤ r.2 then r else (none, r.2)

/-- The per-dish resolution step inside `create_mealplan`
(`app/database.py`): use the similar meal's id when `find_similar_meal`
returns a truthy id (Python truthiness: not `None` and not `0`); otherwise
`INSERT OR IGNORE` the name into `meal`, `SELECT` its id, and store a fresh
embedding for that id (a plain dict assignment: overwrite in place or
append).  Returns `(meal_id, db, embeddings)`. -/
def resolve_meal (sim : Vec → Vec → ℚ) (encode : String → Vec)
    (db : DB) (embs : List (Nat × Vec)) (meal_text : String) :
    Nat × DB × List (Nat × Vec) :=
  let found := (find_similar_meal sim encode embs meal_text).1
  let meal_id : Option Nat :=
    match found with
    | some i => if i = 0 then none else some i
    | none => none
  match meal_id with
  | some i => (i, db, embs)
  | none =>
    let db1 :=
      if db.meals.any (fun p => p.2 = meal_text) then db
      else { db with
        meals := db.meals ++ [(db.next_meal_id, meal_text)],
        next_meal_id := db.next_meal_id + 1 }
    match db1.meals.find? (fun p => p.2 = meal_text) with
    | some row => (row.1, db1, dictUpd row.1 (encode meal_text) embs)
    | none => (0, db1, embs)

/-- Descending-by-score order used by `scores.sort(key=lambda x: x[1],
reverse=True)` in `find_top_similar_meals`. -/
def scoreGE2 (a b : Nat × ℚ) : Prop := b.2 ≤ a.2

instance : DecidableRel scoreGE2 := fun a b => inferInstanceAs (Decidable (b.2 ≤ a.2))

/-- `find_top_similar_meals`: score every stored embedding against the
query, sort descending (stable), truncate to `top_k`, then keep scores at
or above the threshold. -/
def find_top_similar_meals (sim : Vec → Vec → ℚ) (encode : String → Vec)
    (embs : List (Nat × Vec)) (meal_name : String) (top_k : Nat) (threshold : ℚ) :
    List (Nat × ℚ) :=
  if embs.isEmpty then []
  else
    let q := encode meal_name
    let scores := embs.map (fun p => (p.1, sim q p.2))
    let sorted := List.insertionSort scoreGE2 scores
    (sorted.take top_k).filter (fun p => threshold ≤ p.2)

/-- Modelled from the spec's words for the refinement half of the ranking
claim: sort all scores descending, keep scores at or above the threshold,
then truncate to `top_k` (filter before truncate). -/
def rankSpec (sim : Vec → Vec → ℚ) (encode : String → Vec)
    (embs : List (Nat × Vec)) (meal_name : String) (top_k : Nat) (threshold : ℚ) :
    List (Nat × ℚ) :=
  if embs.isEmpty then []
  else
    let q := encode meal_name
    let scores := embs.map (fun p => (p.1, sim q p.2))
    let sorted := List.insertionSort scoreGE2 scores
    (sorted.filter (fun p => threshold ≤ p.2)).take top_k

/-- `__init__` sets `self.meal_embeddings = {}`. -/
def initMealEmbeddings : List (Nat × Vec) := []

/-- `load_cache`: when the cache file exists its pickled mapping replaces
the in-memory store and the call returns `True`; otherwise the store is
left untouched and the call returns `False`.  The filesystem is modelled as
the optional content of the cache file. -/
def load_cache (cacheFile : Option (List (Nat × Vec))) (current : List (Nat × Vec)) :
    List (Nat × Vec) × Bool :=
  match cacheFile with
  | some m => (m, true)
  | none => (current, false)

/-! ## Helper lemmas -/

/-- The regex substitution only ever deletes characters. -/
theorem pySubParensF_sublist : ∀ (fuel : Nat) (l : List Char), (pySubParensF fuel l).Sublist l := by
  intro fuel
  induction fuel with
  | zero => intro l; simp [pySubParensF]
  | succ n ih =>
    intro l
    match l with
    | [] => simp [pySubParensF]
    | c :: rest =>
      by_cases hc : c = '('
      · subst hc
        simp only [pySubParensF, if_true]
        split
        · exact ((ih _).trans (List.drop_sublist _ _)).trans (List.sublist_cons_self _ _)
        · exact (ih rest).cons₂ '('
      · simp only [pySubParensF]
        rw [if_neg (by simpa using hc)]
        exact (ih rest).cons₂ c

/-- `pySubParens` output characters all come from the input. -/
theorem pySubParens_subset {c : Char} {l : List Char} (h : c ∈ pySubParens l) : c ∈ l :=
  (pySubParensF_sublist l.length l).subset h

/-- The dry-run loop never changes the state, pair by pair. -/
theorem mergeLoop_dry_run : ∀ (l : List (Nat × Nat × ℚ)) (st : IntelState),
    (mergeLoop true st l).1 = st := by
  intro l
  induction l with
  | nil => intro st; rfl
  | cons p rest ih =>
    intro st
    show (mergeLoop true st (p :: rest)).1 = st
    simp only [mergeLoop]
    rcases h1 : get_meal_name st.db p.1 with _ | n1 <;>
      rcases h2 : get_meal_name st.db p.2.1 with _ | n2 <;>
        simp only [mergeStep, h1, h2]
    by_cases hp : proteinGuard n1 n2 <;> by_cases hs : skipGuard n1 n2 <;>
      simp [hp, hs, ih st]

/-- Every pair collected by the double loop scores at least the
threshold. -/
theorem pairSims_threshold {sim : Vec → Vec → ℚ} {threshold : ℚ} :
    ∀ {l : List (Nat × Vec)} {p : Nat × Nat × ℚ},
      p ∈ pairSims sim threshold l → threshold ≤ p.2.2 := by
  intro l
  induction l with
  | nil => intro p h; simp [pairSims] at h
  | cons hd tl ih =>
    intro p hp
    simp only [pairSims, List.mem_append, List.mem_filterMap] at hp
    rcases hp with ⟨q, _, hq⟩ | hp
    · by_cases hle : threshold ≤ sim hd.2 q.2
      · simp only [if_pos hle, Option.some_inj] at hq
        subst hq; exact hle
      · simp [if_neg hle] at hq
    · exact ih hp

instance : IsTotal (Nat × Nat × ℚ) scoreGE := ⟨fun a b => le_total b.2.2 a.2.2⟩

instance : IsTrans (Nat × Nat × ℚ) scoreGE :=
  ⟨fun _ _ _ h1 h2 => le_trans h2 h1⟩

instance : IsTotal (Nat × ℚ) scoreGE2 := ⟨fun a b => le_total b.2 a.2⟩

instance : IsTrans (Nat × ℚ) scoreGE2 := ⟨fun _ _ _ h1 h2 => le_trans h2 h1⟩

/-- On a list sorted non-increasingly by score, truncating and then
filtering by a score floor is the same as filtering and then
truncating. -/
theorem take_filter_comm_of_sorted (threshold : ℚ) :
    ∀ (l : List (Nat × ℚ)) (k : Nat), l.Sorted scoreGE2 →
      (l.take k).filter (fun p => threshold ≤ p.2) =
        (l.filter (fun p => threshold ≤ p.2)).take k := by
  intro l
  induction l with
  | nil => intro k _; simp
  | cons a tl ih =>
    intro k hs
    have htl : tl.Sorted scoreGE2 := (List.sorted_cons.mp hs).2
    have hhd : ∀ b ∈ tl, b.2 ≤ a.2 := (List.sorted_cons.mp hs).1
    match k with
    | 0 => simp
    | k + 1 =>
      by_cases hpa : threshold ≤ a.2
      · simp [List.filter_cons, hpa, ih k htl]
      · have hall : ∀ b ∈ tl, ¬ threshold ≤ b.2 := fun b hb hcontra =>
          hpa (le_trans hcontra (hhd b hb))
        have h1 : tl.filter (fun p => threshold ≤ p.2) = [] :=
          List.filter_eq_nil_iff.mpr (by simpa using hall)
        have h2 : (tl.take k).filter (fun p => threshold ≤ p.2) = [] :=
          List.filter_eq_nil_iff.mpr (fun b hb => by
            simpa using hall b (List.mem_of_mem_take hb))
        simp [List.filter_cons, hpa, h1, h2]

/-- `find?` commutes with a filter that every `find?`-hit survives. -/
theorem find?_filter_of_imp {α : Type} {p q : α → Bool} :
    ∀ (l : List α), (∀ x, p x = true → q x = true) →
      (l.filter q).find? p = l.find? p := by
  intro l h
  induction l with
  | nil => rfl
  | cons a tl ih =>
    by_cases hq : q a
    · by_cases hp : p a
      · simp [List.filter_cons, hq, List.find?_cons, hp]
      · simp only [List.filter_cons, hq, if_pos rfl]
        simp [List.find?_cons, hp, ih]
    · have hp : p a = false := by
        rcases hpa : p a with _ | _
        · rfl
        · exact absurd (h a hpa) (by simpa using hq)
      simp [List.filter_cons, hq, List.find?_cons, hp, ih]

section BestLoop

variable {sim : Vec → Vec → ℚ} {v : Vec}

/-- The running best score never decreases. -/
theorem bestLoop_score_mono : ∀ (l : List (Nat × Vec)) (acc : Option Nat × ℚ),
    acc.2 ≤ (bestLoop sim v l acc).2 := by
  intro l
  induction l with
  | nil => intro acc; exact le_refl _
  | cons q tl ih =>
    intro acc
    show acc.2 ≤ (bestLoop sim v tl
      (if acc.2 < sim v q.2 then (some q.1, sim v q.2) else acc)).2
    by_cases h : acc.2 < sim v q.2
    · rw [if_pos h]
      exact le_trans (le_of_lt h) (ih _)
    · rw [if_neg h]
      exact ih acc

/-- The final best score dominates every scanned score. -/
theorem bestLoop_score_ge : ∀ (l : List (Nat × Vec)) (acc : Option Nat × ℚ)
    (q : Nat × Vec), q ∈ l → sim v q.2 ≤ (bestLoop sim v l acc).2 := by
  intro l
  induction l with
  | nil => intro acc q hq; simp at hq
  | cons hd tl ih =>
    intro acc q hq
    rcases List.mem_cons.mp hq with hq | hq
    · subst hq
      show sim v q.2 ≤ (bestLoop sim v tl
        (if acc.2 < sim v q.2 then (some q.1, sim v q.2) else acc)).2
      refine le_trans ?_ (bestLoop_score_mono tl _)
      by_cases h : acc.2 < sim v q.2
      · rw [if_pos h]
      · rw [if_neg h]
        exact le_of_not_lt h
    · exact ih _ q hq

/-- A strict bound on the accumulator and on every score is preserved. -/
theorem bestLoop_score_lt : ∀ (l : List (Nat × Vec)) (acc : Option Nat × ℚ) {c : ℚ},
    (∀ q ∈ l, sim v q.2 < c) → acc.2 < c → (bestLoop sim v l acc).2 < c := by
  intro l
  induction l with
  | nil => intro acc c _ hacc; exact hacc
  | cons hd tl ih =>
    intro acc c hl hacc
    show (bestLoop sim v tl
      (if acc.2 < sim v hd.2 then (some hd.1, sim v hd.2) else acc)).2 < c
    refine ih _ (fun q hq => hl q (List.mem_cons_of_mem hd hq)) ?_
    by_cases h : acc.2 < sim v hd.2
    · rw [if_pos h]; exact hl hd (List.mem_cons_self hd tl)
    · rw [if_neg h]; exact hacc

/-- When no score beats the accumulator, the loop keeps it unchanged. -/
theorem bestLoop_keep : ∀ (l : List (Nat × Vec)) (acc : Option Nat × ℚ),
    (∀ q ∈ l, ¬ acc.2 < sim v q.2) → bestLoop sim v l acc = acc := by
  intro l
  induction l with
  | nil => intro acc _; rfl
  | cons hd tl ih =>
    intro acc h
    show bestLoop sim v tl
      (if acc.2 < sim v hd.2 then (some hd.1, sim v hd.2) else acc) = acc
    rw [if_neg (h hd (List.mem_cons_self hd tl))]
    exact ih acc (fun q hq => h q (List.mem_cons_of_mem hd hq))

/-- The loop either returns the accumulator untouched or the id and score
of some scanned entry. -/
theorem bestLoop_cases : ∀ (l : List (Nat × Vec)) (acc : Option Nat × ℚ),
    bestLoop sim v l acc = acc ∨
      ∃ q ∈ l, (bestLoop sim v l acc).1 = some q.1 ∧
        (bestLoop sim v l acc).2 = sim v q.2 := by
  intro l
  induction l with
  | nil => intro acc; exact Or.inl rfl
  | cons hd tl ih =>
    intro acc
    have hstep : bestLoop sim v (hd :: tl) acc =
        bestLoop sim v tl (if acc.2 < sim v hd.2 then (some hd.1, sim v hd.2) else acc) := rfl
    by_cases h : acc.2 < sim v hd.2
    · rw [hstep, if_pos h]
      rcases ih (some hd.1, sim v hd.2) with heq | ⟨q, hq, h1, h2⟩
      · rw [heq]
        exact Or.inr ⟨hd, List.mem_cons_self hd tl, rfl, rfl⟩
      · exact Or.inr ⟨q, List.mem_cons_of_mem hd hq, h1, h2⟩
    · rw [hstep, if_neg h]
      rcases ih acc with heq | ⟨q, hq, h1, h2⟩
      · exact Or.inl heq
      · exact Or.inr ⟨q, List.mem_cons_of_mem hd hq, h1, h2⟩

/-- With a unique strict maximum at entry `(i, w)`, the loop returns
exactly `(some i, sim v w)`. -/
theorem bestLoop_unique_max (l₁ l₂ : List (Nat × Vec)) (i : Nat) (w : Vec)
    (acc : Option Nat × ℚ)
    (h₁ : ∀ q ∈ l₁, sim v q.2 < sim v w)
    (h₂ : ∀ q ∈ l₂, sim v q.2 < sim v w)
    (hacc : acc.2 < sim v w) :
    bestLoop sim v (l₁ ++ (i, w) :: l₂) acc = (some i, sim v w) := by
  have happ : bestLoop sim v (l₁ ++ (i, w) :: l₂) acc =
      bestLoop sim v ((i, w) :: l₂) (bestLoop sim v l₁ acc) := by
    simp [bestLoop, List.foldl_append]
  rw [happ]
  have hlt : (bestLoop sim v l₁ acc).2 < sim v w := bestLoop_score_lt l₁ acc h₁ hacc
  show bestLoop sim v l₂
    (if (bestLoop sim v l₁ acc).2 < sim v w then (some i, sim v w)
      else bestLoop sim v l₁ acc) = _
  rw [if_pos hlt]
  exact bestLoop_keep l₂ _ (fun q hq => not_lt_of_gt (h₂ q hq))

end BestLoop

/-- `dictUpd` either overwrites the first occurrence of the key in place or
appends a fresh entry at the end. -/
theorem dictUpd_split {β : Type} (k : Nat) (v : β) :
    ∀ l : List (Nat × β),
      (∃ l₁ l₂ w, l = l₁ ++ (k, w) :: l₂ ∧ (∀ q ∈ l₁, q.1 ≠ k) ∧
        dictUpd k v l = l₁ ++ (k, v) :: l₂) ∨
      ((∀ q ∈ l, q.1 ≠ k) ∧ dictUpd k v l = l ++ [(k, v)]) := by
  intro l
  induction l with
  | nil => exact Or.inr ⟨fun q hq => absurd hq (List.not_mem_nil q), rfl⟩
  | cons hd tl ih =>
    by_cases hk : hd.1 = k
    · refine Or.inl ⟨[], tl, hd.2, ?_, ?_, ?_⟩
      · simp only [List.nil_append]
        rw [show (k, hd.2) = hd from by rw [← hk]]
      · intro q hq; simp at hq
      · show dictUpd k v (hd :: tl) = (k, v) :: tl
        rw [show hd :: tl = (hd.1, hd.2) :: tl from rfl]
        simp [dictUpd, hk]
    · rcases ih with ⟨l₁, l₂, w, heq, hl₁, hupd⟩ | ⟨hall, hupd⟩
      · refine Or.inl ⟨hd :: l₁, l₂, w, by rw [heq]; rfl, ?_, ?_⟩
        · intro q hq
          rcases List.mem_cons.mp hq with hq | hq
          · subst hq; exact hk
          · exact hl₁ q hq
        · show dictUpd k v (hd :: tl) = hd :: (l₁ ++ (k, v) :: l₂)
          rw [show hd :: tl = (hd.1, hd.2) :: tl from rfl]
          simp only [dictUpd, if_neg hk]
          rw [hupd]
      · refine Or.inr ⟨?_, ?_⟩
        · intro q hq
          rcases List.mem_cons.mp hq with hq | hq
          · subst hq; exact hk
          · exact hall q hq
        · show dictUpd k v (hd :: tl) = (hd :: tl) ++ [(k, v)]
          rw [show hd :: tl = (hd.1, hd.2) :: tl from rfl]
          simp only [dictUpd, if_neg hk]
          rw [hupd]
          rfl

/-- `find?` skips a prefix with no hit. -/
theorem find?_append_of_none {α : Type} {p : α → Bool} :
    ∀ {l₁ : List α} (l₂ : List α), l₁.find? p = none →
      (l₁ ++ l₂).find? p = l₂.find? p := by
  intro l₁
  induction l₁ with
  | nil => intro l₂ _; rfl
  | cons a tl ih =>
    intro l₂ h
    rcases List.find?_eq_none.mp h a (List.mem_cons_self a tl) with hpa
    have hpa : p a = false := by simpa using hpa
    rw [List.cons_append, List.find?_cons, hpa]
    exact ih l₂ (by rw [List.find?_cons, hpa] at h; exact h)

/-- A matched id returned by `find_similar_meal` is a key of the store. -/
theorem find_similar_meal_mem {sim : Vec → Vec → ℚ} {encode : String → Vec}
    {embs : List (Nat × Vec)} {t : String} {i : Nat}
    (h : (find_similar_meal sim encode embs t).1 = some i) :
    i ∈ embs.map Prod.fst := by
  by_cases hemp : embs.isEmpty
  · rw [find_similar_meal, if_pos hemp] at h
    simp at h
  · rw [find_similar_meal, if_neg hemp] at h
    by_cases hthr : MATCH_THRESHOLD ≤ (bestLoop sim (encode t) embs (none, 0)).2
    · rw [if_pos hthr] at h
      rcases bestLoop_cases embs ((none : Option Nat), (0 : ℚ)) with heq | ⟨q, hq, h1, _⟩
      · rw [heq] at h; simp at h
      · rw [h1] at h
        exact List.mem_map.mpr ⟨q, hq, by simpa using h⟩
    · rw [if_neg hthr] at h
      simp at h

/-- When `find_similar_meal` reports no match, every stored score is
strictly below the threshold. -/
theorem find_similar_meal_none_low {sim : Vec → Vec → ℚ} {encode : String → Vec}
    {embs : List (Nat × Vec)} {t : String}
    (h : (find_similar_meal sim encode embs t).1 = none) :
    ∀ q ∈ embs, sim (encode t) q.2 < MATCH_THRESHOLD := by
  intro q hq
  by_cases hemp : embs.isEmpty
  · rw [List.isEmpty_iff] at hemp
    subst hemp
    simp at hq
  · rw [find_similar_meal, if_neg hemp] at h
    by_cases hthr : MATCH_THRESHOLD ≤ (bestLoop sim (encode t) embs (none, 0)).2
    · rw [if_pos hthr] at h
      rcases @bestLoop_cases sim (encode t) embs ((none : Option Nat), (0 : ℚ))
        with heq | ⟨q', _, h1, _⟩
      · rw [heq] at h hthr
        exact absurd hthr (by norm_num [MATCH_THRESHOLD])
      · rw [h1] at h; simp at h
    · exact lt_of_le_of_lt (bestLoop_score_ge embs _ q hq) (lt_of_not_ge hthr)

/-- After storing the query's own embedding under id `i`, a store whose
other scores are all below the threshold matches `i` with score `1`. -/
theorem find_similar_meal_after_upd {sim : Vec → Vec → ℚ} {encode : String → Vec}
    {embs : List (Nat × Vec)} {t : String} (i : Nat)
    (hself : sim (encode t) (encode t) = 1)
    (hlow : ∀ q ∈ embs, sim (encode t) q.2 < MATCH_THRESHOLD) :
    find_similar_meal sim encode (dictUpd i (encode t) embs) t = (some i, 1) := by
  have hlow1 : ∀ q ∈ embs, sim (encode t) q.2 < sim (encode t) (encode t) := by
    intro q hq
    rw [hself]
    exact lt_of_lt_of_le (hlow q hq) (by norm_num [MATCH_THRESHOLD])
  rcases dictUpd_split i (encode t) embs with ⟨l₁, l₂, w, heq, _, hupd⟩ | ⟨_, hupd⟩
  · have hbest : bestLoop sim (encode t) (dictUpd i (encode t) embs) (none, 0)
        = (some i, sim (encode t) (encode t)) := by
      rw [hupd]
      refine bestLoop_unique_max l₁ l₂ i (encode t) (none, 0) ?_ ?_ ?_
      · intro q hq
        exact hlow1 q (by rw [heq]; simp [hq])
      · intro q hq
        exact hlow1 q (by rw [heq]; simp [hq])
      · rw [hself]; norm_num
    have hemp : (dictUpd i (encode t) embs).isEmpty = false := by
      rw [hupd]
      rcases l₁ with _ | ⟨a, l⟩ <;> simp
    rw [find_similar_meal, if_neg (by simp [hemp]), hbest, hself,
      if_pos (by norm_num [MATCH_THRESHOLD])]
  · have hbest : bestLoop sim (encode t) (dictUpd i (encode t) embs) (none, 0)
        = (some i, sim (encode t) (encode t)) := by
      rw [hupd]
      refine bestLoop_unique_max embs [] i (encode t) (none, 0) hlow1
        (fun q hq => absurd hq (List.not_mem_nil q)) ?_
      rw [hself]; norm_num
    have hemp : (dictUpd i (encode t) embs).isEmpty = false := by
      rw [hupd]
      rcases embs with _ | ⟨a, l⟩ <;> simp
    rw [find_similar_meal, if_neg (by simp [hemp]), hbest, hself,
      if_pos (by norm_num [MATCH_THRESHOLD])]

/-! ## Claim theorems -/

/-- Claim C7 (counterexample): the claim "the result never starts or ends with a
whitespace character" is false: on input `"a\n(b)"` the code strips first,
turns the interior newline into a space, then deletes `"(b)"`, leaving
`"a "`, which ends with the whitespace character `' '`. -/
theorem prettify_meal_str_trailing_space :
    prettify_meal_str ['a', '\n', '(', 'b', ')'] = ['a', ' '] ∧
      (prettify_meal_str ['a', '\n', '(', 'b', ')']).getLast? = some ' ' ∧
      pyIsSpace ' ' = true := by
  decide

/-- Claim C7 (amended): `prettify_meal_str` first trims leading and
trailing whitespace, then replaces newlines with spaces and removes
carriage returns, then deletes every substring matching `\([^ ]*\)`; the
result therefore contains no newline and no carriage return, but — because
trimming happens before the other stages — it may begin or end with a
space. -/
theorem prettify_meal_str_no_newline_cr (s : List Char) :
    '\n' ∉ prettify_meal_str s ∧ '\r' ∉ prettify_meal_str s := by
  constructor
  · intro h
    have h1 : '\n' ∈ ((pyStrip s).map (fun c => if c = '\n' then ' ' else c)).filter
        (fun c => c ≠ '\r') := pySubParens_subset h
    rcases List.mem_map.mp (List.mem_filter.mp h1).1 with ⟨c, _, hc⟩
    by_cases hcn : c = '\n'
    · rw [if_pos hcn] at hc
      exact absurd hc (by decide)
    · rw [if_neg hcn] at hc
      exact hcn hc
  · intro h
    have h1 : '\r' ∈ ((pyStrip s).map (fun c => if c = '\n' then ' ' else c)).filter
        (fun c => c ≠ '\r') := pySubParens_subset h
    have h2 := (List.mem_filter.mp h1).2
    simp at h2

/-- Claim C3 (counterexample): the claim that dish text from continuation rows
after a category row is accumulated and committed at the next category
boundary is false: in this table the category row has no dish cell and the
following continuation row carries `"Suppe"`, yet the parsed day has an
empty meals mapping, because the category is cleared at the end of the
category row itself. -/
theorem parse_table_drops_continuation_row :
    parse_table [[some "Montag 01.01.24"], [some "Tagesgericht"], [none, some "Suppe"]]
      = Except.ok [("2024-01-01", "Montag", [])] := by
  rfl

/-- Claim C3 (amended): `parse_table`'s body loop clears the category at the end
of every processed row, so dish text is taken only from the category row
itself: a row whose first cell contains no category keyword, reached with
no category selected (which is always the case at row boundaries), changes
nothing. -/
theorem rowStep_commits_on_category_row_only :
    (∀ (days : List DayInfo) (st : PTState) (row : List Cell),
        st.category = none → (rowStep days st row).category = none) ∧
    (∀ (days : List DayInfo) (st : PTState) (row : List Cell),
        st.category = none →
        pdfCategories.any (fun k => occursIn k.toList (rowFirstCell row).toList) = false →
        rowStep days st row = st) := by
  constructor
  · intro days st row hcat
    simp only [rowStep]
    split
    · exact hcat
    · split
      next h0 => exact h0
      next cat h0 => rfl
  · intro days st row hcat hnone
    simp only [rowStep, hnone, Bool.false_eq_true, if_false, hcat]
    split <;> rfl

/-- Claim C3 (witness): the amended theorem applied to a concrete continuation
row, which is left unprocessed. -/
theorem rowStep_commits_on_category_row_only_witness :
    (⟨[], [], none⟩ : PTState).category = none ∧
      rowStep [] ⟨[], [], none⟩ [some "Suppe"] = ⟨[], [], none⟩ :=
  ⟨rfl, rowStep_commits_on_category_row_only.2 [] ⟨[], [], none⟩ [some "Suppe"] rfl (by decide)⟩

/-- Claim C2 (failing input): `parse_table` does not return normally on every
table: a header cell whose date has a four-digit year passes the search
regex `\d{2}\.\d{2}\.\d{2,4}` but `datetime.strptime(..., "%d.%m.%y")`
then raises `ValueError` (unconverted data), and no handler catches it, so
the whole table (and document) fails instead of the cell being skipped. -/
theorem parse_table_error_on_four_digit_year :
    parse_table [[some "Montag 01.01.2024"], [some "Tagesgericht", some "Suppe"]]
      = Except.error "ValueError: unconverted data remains" := by
  rfl

/-- Claim C9: `merge_duplicates` in dry-run mode leaves the state unchanged —
the day-table rows, the meal rows and the id-to-embedding mapping are all
identical, for every store, threshold and similarity function, even when
the loop stops early on a missing meal name. -/
theorem merge_duplicates_dry_run_frame (sim : Vec → Vec → ℚ) (st : IntelState)
    (threshold : ℚ) :
    (merge_duplicates sim st threshold true).1.db.days = st.db.days ∧
      (merge_duplicates sim st threshold true).1.db.meals = st.db.meals ∧
      (merge_duplicates sim st threshold true).1.embs = st.embs := by
  rw [merge_duplicates, mergeLoop_dry_run]
  exact ⟨rfl, rfl, rfl⟩

/-- Claim C10: restoring the embedding cache when the cache file is absent is not
an error: `load_cache` returns `False` and the store stays the empty
mapping created by `__init__`; when the file exists its persisted mapping
replaces the in-memory store and `load_cache` returns `True`. -/
theorem load_cache_missing_file_and_restore :
    (load_cache none initMealEmbeddings = (initMealEmbeddings, false) ∧
      initMealEmbeddings = ([] : List (Nat × Vec))) ∧
    ∀ (m current : List (Nat × Vec)), load_cache (some m) current = (m, true) :=
  ⟨⟨rfl, rfl⟩, fun _ _ => rfl⟩

/-- Claim C8: the spreadsheet week number is determined in priority order — the
in-sheet `KW` marker cell first, else the filename pattern `KW\s*(\d+)`,
else `Mensa\s+(\d+)`, else the first integer in the filename — and the
parser raises (producing no schedule) exactly when all of these fail. -/
theorem parseXlsWeek_priority_and_error (c : Option String) (f : String) :
    (∀ n, sheetWeek c = some n → parseXlsWeek c f = Except.ok n) ∧
    (∀ n, sheetWeek c = none → searchKW f.toList = some n →
      parseXlsWeek c f = Except.ok (n : Int)) ∧
    (∀ n, sheetWeek c = none → searchKW f.toList = none →
      searchMensa f.toList = some n → parseXlsWeek c f = Except.ok (n : Int)) ∧
    (∀ n, sheetWeek c = none → searchKW f.toList = none →
      searchMensa f.toList = none → searchFirstInt f.toList = some n →
      parseXlsWeek c f = Except.ok (n : Int)) ∧
    (parseXlsWeek c f = Except.error "Could not determine week number" ↔
      sheetWeek c = none ∧ searchKW f.toList = none ∧
        searchMensa f.toList = none ∧ searchFirstInt f.toList = none) := by
  rcases hs : sheetWeek c with _ | n0 <;>
    rcases hk : searchKW f.data with _ | n1 <;>
      rcases hm : searchMensa f.data with _ | n2 <;>
        rcases hf : searchFirstInt f.data with _ | n3 <;>
          simp [parseXlsWeek, extract_week_from_filename, String.toList, hs, hk, hm, hf]

/-- Claim C8 (witness): a sheet whose marker cell reads `"KW 7"` resolves to week
7 no matter what the filename holds. -/
theorem parseXlsWeek_priority_witness :
    sheetWeek (some "KW 7") = some 7 ∧
      parseXlsWeek (some "KW 7") "plan.xls" = Except.ok 7 :=
  ⟨by decide, (parseXlsWeek_priority_and_error (some "KW 7") "plan.xls").1 7 (by decide)⟩

/-- Claim C1 (counterexample): `find_duplicates` consults neither the skip list
nor the protein groups: with two stored embeddings scoring `1`, the pair is
returned even though both dish texts are in `SKIP_PAIRS` (and, in the
second store, even though the two texts map to different protein
groups — beef vs. pork).  Those guards live in `merge_duplicates` only. -/
theorem find_duplicates_ignores_guards :
    find_duplicates (fun _ _ => 1) [(1, [1]), (2, [1])] 1 = [(1, 2, 1)] ∧
      get_meal_name ⟨[(1, "Chili sin Carne  mit Mais, Bohnen dazu Baguette"),
          (2, "Gemüsebratling mit Currysauce dazu Reis")], 3, []⟩ 1
        = some "Chili sin Carne  mit Mais, Bohnen dazu Baguette" ∧
      get_meal_name ⟨[(1, "Chili sin Carne  mit Mais, Bohnen dazu Baguette"),
          (2, "Gemüsebratling mit Currysauce dazu Reis")], 3, []⟩ 2
        = some "Gemüsebratling mit Currysauce dazu Reis" ∧
      "Chili sin Carne  mit Mais, Bohnen dazu Baguette" ∈ SKIP_PAIRS ∧
      "Gemüsebratling mit Currysauce dazu Reis" ∈ SKIP_PAIRS ∧
      get_meal_name ⟨[(1, "Rinderbraten mit Soße"), (2, "Schweinebraten mit Soße")], 3, []⟩ 1
        = some "Rinderbraten mit Soße" ∧
      get_meal_name ⟨[(1, "Rinderbraten mit Soße"), (2, "Schweinebraten mit Soße")], 3, []⟩ 2
        = some "Schweinebraten mit Soße" ∧
      _get_protein "Rinderbraten mit Soße" = some 0 ∧
      _get_protein "Schweinebraten mit Soße" = some 1 := by
  decide

/-- Claim C1 (amended): every pair returned by `find_duplicates` has similarity
at least the threshold and the returned list is sorted non-increasingly by
score; the skip-list and protein-group guards are not applied here but in
`merge_duplicates`. -/
theorem find_duplicates_threshold_and_sorted (sim : Vec → Vec → ℚ)
    (embs : List (Nat × Vec)) (threshold : ℚ) :
    (∀ p ∈ find_duplicates sim embs threshold, threshold ≤ p.2.2) ∧
      (find_duplicates sim embs threshold).Pairwise scoreGE := by
  constructor
  · intro p hp
    exact pairSims_threshold ((List.perm_insertionSort scoreGE _).mem_iff.mp hp)
  · exact List.sorted_insertionSort scoreGE _

/-- Claim C1 (witness): the amended theorem applied to a concrete store whose
single returned pair scores exactly the threshold. -/
theorem find_duplicates_threshold_witness :
    (1, 2, (1 : ℚ)) ∈ find_duplicates (fun _ _ => 1) [(1, [1]), (2, [1])] 1 ∧
      (1 : ℚ) ≤ (1 : ℚ) :=
  ⟨by decide,
    (find_duplicates_threshold_and_sorted (fun _ _ => 1) [(1, [1]), (2, [1])] 1).1
      (1, 2, 1) (by decide)⟩

/-- Claim C6: on a non-empty store, `find_top_similar_meals` returns a list
sorted non-increasingly by score, of length at most `top_k`, containing
only scores at or above the threshold, and equal to the spec's
filter-then-truncate of the descending-sorted score list (the code's
truncate-then-filter commutes with it on a sorted list). -/
theorem find_top_similar_meals_correct (sim : Vec → Vec → ℚ) (encode : String → Vec)
    (embs : List (Nat × Vec)) (meal_name : String) (top_k : Nat) (threshold : ℚ)
    (h : embs ≠ []) :
    (find_top_similar_meals sim encode embs meal_name top_k threshold).Sorted scoreGE2 ∧
      (find_top_similar_meals sim encode embs meal_name top_k threshold).length ≤ top_k ∧
      (∀ p ∈ find_top_similar_meals sim encode embs meal_name top_k threshold,
        threshold ≤ p.2) ∧
      find_top_similar_meals sim encode embs meal_name top_k threshold =
        rankSpec sim encode embs meal_name top_k threshold := by
  have hne : embs.isEmpty = false := by simpa using h
  have hs : (List.insertionSort scoreGE2
      (embs.map (fun p => (p.1, sim (encode meal_name) p.2)))).Sorted scoreGE2 :=
    List.sorted_insertionSort scoreGE2 _
  refine ⟨?_, ?_, ?_, ?_⟩
  · simp only [find_top_similar_meals, hne, Bool.false_eq_true, if_false]
    exact hs.sublist ((List.filter_sublist _).trans (List.take_sublist _ _))
  · simp only [find_top_similar_meals, hne, Bool.false_eq_true, if_false]
    exact le_trans (List.length_filter_le _ _) (by simp [List.length_take])
  · intro p hp
    simp only [find_top_similar_meals, hne, Bool.false_eq_true, if_false] at hp
    simpa using (List.mem_filter.mp hp).2
  · simp only [find_top_similar_meals, rankSpec, hne, Bool.false_eq_true, if_false]
    exact take_filter_comm_of_sorted threshold _ top_k hs

/-- Claim C6 (witness): the theorem applied to a concrete one-entry store. -/
theorem find_top_similar_meals_witness :
    ([(1, ([] : Vec))] ≠ ([] : List (Nat × Vec))) ∧
      find_top_similar_meals (fun _ _ => 1) (fun _ => []) [(1, [])] "q" 10 1 =
        rankSpec (fun _ _ => 1) (fun _ => []) [(1, [])] "q" 10 1 :=
  ⟨by simp,
    (find_top_similar_meals_correct (fun _ _ => 1) (fun _ => []) [(1, [])] "q" 10 1
      (by simp)).2.2.2⟩

/-- Claim C4: for a candidate pair processed by `merge_duplicates` with
`dry_run = False` whose meal names both resolve: a protein-group mismatch
or a skip-list hit leaves the state untouched regardless of score;
otherwise the longer-named dish survives as canonical (a length tie keeps
the first of the pair), every reference in the four day-table columns is
rewritten from the duplicate id to the canonical id, and the duplicate
meal row and its embedding are deleted while the canonical row keeps its
name. -/
theorem mergeStep_guards_and_merge (st : IntelState) (p : Nat × Nat × ℚ)
    (n1 n2 : String)
    (h1 : get_meal_name st.db p.1 = some n1)
    (h2 : get_meal_name st.db p.2.1 = some n2)
    (hne : p.1 ≠ p.2.1) :
    (proteinGuard n1 n2 = true ∨ skipGuard n1 n2 = true →
      mergeStep false st p = (st, true)) ∧
    (proteinGuard n1 n2 = false → skipGuard n1 n2 = false →
      ∀ canonical dup : Nat,
        (canonical, dup) = (if n2.length ≤ n1.length then (p.1, p.2.1) else (p.2.1, p.1)) →
        mergeStep false st p = (applyMergePair st p.1 p.2.1 n1 n2, true) ∧
        (applyMergePair st p.1 p.2.1 n1 n2).db.days =
          st.db.days.map (rewriteDay canonical dup) ∧
        (∀ c : Option Nat, c = some dup → rewriteCol canonical dup c = some canonical) ∧
        (∀ c : Option Nat, c ≠ some dup → rewriteCol canonical dup c = c) ∧
        (∀ q ∈ (applyMergePair st p.1 p.2.1 n1 n2).db.meals, q.1 ≠ dup) ∧
        get_meal_name (applyMergePair st p.1 p.2.1 n1 n2).db dup = none ∧
        (∀ q ∈ (applyMergePair st p.1 p.2.1 n1 n2).embs, q.1 ≠ dup) ∧
        get_meal_name (applyMergePair st p.1 p.2.1 n1 n2).db canonical =
          some (if n2.length ≤ n1.length then n1 else n2)) := by
  constructor
  · intro hguard
    rcases hguard with hp | hsk
    · simp [mergeStep, h1, h2, hp]
    · simp only [mergeStep, h1, h2]
      by_cases hp : proteinGuard n1 n2 <;> simp [hp, hsk]
  · intro hp hsk canonical dup hcd
    by_cases hlen : n2.length ≤ n1.length
    · rw [if_pos hlen, Prod.mk.injEq] at hcd
      obtain ⟨hc, hd⟩ := hcd
      subst hc; subst hd
      have hstep : mergeStep false st p = (applyMergePair st p.1 p.2.1 n1 n2, true) := by
        simp [mergeStep, h1, h2, hp, hsk]
      have hcd2 : (if n2.length ≤ n1.length then (p.1, p.2.1) else (p.2.1, p.1))
          = (p.1, p.2.1) := if_pos hlen
      refine ⟨hstep, ?_, ?_, ?_, ?_, ?_, ?_, ?_⟩
      · simp [applyMergePair, hcd2]
      · intro c hc; simp [rewriteCol, hc]
      · intro c hc; simp [rewriteCol, hc]
      · intro q hq
        simp only [applyMergePair, hcd2, List.mem_filter, decide_eq_true_eq] at hq
        exact hq.2
      · refine Option.map_eq_none.mpr (List.find?_eq_none.mpr ?_)
        intro x hx
        simp only [applyMergePair, hcd2, List.mem_filter, decide_eq_true_eq] at hx
        simpa using hx.2
      · intro q hq
        simp only [applyMergePair, hcd2, List.mem_filter, decide_eq_true_eq] at hq
        exact hq.2
      · have heq : (applyMergePair st p.1 p.2.1 n1 n2).db.meals =
            st.db.meals.filter (fun q => q.1 ≠ p.2.1) := by
          simp [applyMergePair, hcd2]
        rw [if_pos hlen]
        show ((applyMergePair st p.1 p.2.1 n1 n2).db.meals.find?
          (fun q => q.1 = p.1)).map (fun q => q.2) = some n1
        rw [heq, find?_filter_of_imp _ (fun x hx => by
          simp only [decide_eq_true_eq] at hx
          simpa [hx] using hne)]
        exact h1
    · rw [if_neg hlen, Prod.mk.injEq] at hcd
      obtain ⟨hc, hd⟩ := hcd
      subst hc; subst hd
      have hstep : mergeStep false st p = (applyMergePair st p.1 p.2.1 n1 n2, true) := by
        simp [mergeStep, h1, h2, hp, hsk]
      have hcd2 : (if n2.length ≤ n1.length then (p.1, p.2.1) else (p.2.1, p.1))
          = (p.2.1, p.1) := if_neg hlen
      refine ⟨hstep, ?_, ?_, ?_, ?_, ?_, ?_, ?_⟩
      · simp [applyMergePair, hcd2]
      · intro c hc; simp [rewriteCol, hc]
      · intro c hc; simp [rewriteCol, hc]
      · intro q hq
        simp only [applyMergePair, hcd2, List.mem_filter, decide_eq_true_eq] at hq
        exact hq.2
      · refine Option.map_eq_none.mpr (List.find?_eq_none.mpr ?_)
        intro x hx
        simp only [applyMergePair, hcd2, List.mem_filter, decide_eq_true_eq] at hx
        simpa using hx.2
      · intro q hq
        simp only [applyMergePair, hcd2, List.mem_filter, decide_eq_true_eq] at hq
        exact hq.2
      · have heq : (applyMergePair st p.1 p.2.1 n1 n2).db.meals =
            st.db.meals.filter (fun q => q.1 ≠ p.1) := by
          simp [applyMergePair, hcd2]
        rw [if_neg hlen]
        show ((applyMergePair st p.1 p.2.1 n1 n2).db.meals.find?
          (fun q => q.1 = p.2.1)).map (fun q => q.2) = some n2
        rw [heq, find?_filter_of_imp _ (fun x hx => by
          simp only [decide_eq_true_eq] at hx
          simpa [hx] using Ne.symm hne)]
        exact h2

/-- Claim C4 (witness): the theorem applied to a concrete pair of skip-list
dishes, which the non-dry run leaves unmerged. -/
theorem mergeStep_guards_witness :
    get_meal_name ⟨[(1, "Chili sin Carne  mit Mais, Bohnen dazu Baguette"),
        (2, "Gemüsebratling mit Currysauce dazu Reis")], 3, []⟩ 1
      = some "Chili sin Carne  mit Mais, Bohnen dazu Baguette" ∧
    skipGuard "Chili sin Carne  mit Mais, Bohnen dazu Baguette"
      "Gemüsebratling mit Currysauce dazu Reis" = true ∧
    mergeStep false
      ⟨⟨[(1, "Chili sin Carne  mit Mais, Bohnen dazu Baguette"),
        (2, "Gemüsebratling mit Currysauce dazu Reis")], 3, []⟩, []⟩ (1, 2, 1) =
      (⟨⟨[(1, "Chili sin Carne  mit Mais, Bohnen dazu Baguette"),
        (2, "Gemüsebratling mit Currysauce dazu Reis")], 3, []⟩, []⟩, true) :=
  ⟨by decide, by decide,
    (mergeStep_guards_and_merge
      ⟨⟨[(1, "Chili sin Carne  mit Mais, Bohnen dazu Baguette"),
        (2, "Gemüsebratling mit Currysauce dazu Reis")], 3, []⟩, []⟩ (1, 2, 1)
      "Chili sin Carne  mit Mais, Bohnen dazu Baguette"
      "Gemüsebratling mit Currysauce dazu Reis"
      (by decide) (by decide) (by decide)).1 (Or.inr (by decide))⟩

/-- Claim C5: resolving the exact same dish text twice in one session yields the
same dish id both times, and the second resolution leaves the database and
the embedding store exactly as the first left them — in particular it adds
no new embedding.  The hypotheses are what the code guarantees: the encoder
is deterministic (it is a function here), cosine self-similarity of the
encoded text is `1`, and SQLite row ids are never `0`. -/
theorem resolve_meal_consistent (sim : Vec → Vec → ℚ) (encode : String → Vec)
    (db : DB) (embs : List (Nat × Vec)) (t : String)
    (hself : sim (encode t) (encode t) = 1)
    (hz1 : ∀ q ∈ db.meals, q.1 ≠ 0)
    (hz2 : ∀ q ∈ embs, q.1 ≠ 0)
    (hnext : db.next_meal_id ≠ 0) :
    resolve_meal sim encode (resolve_meal sim encode db embs t).2.1
        (resolve_meal sim encode db embs t).2.2 t =
      resolve_meal sim encode db embs t := by
  rcases hfs : (find_similar_meal sim encode embs t).1 with _ | i
  · -- no truthy match: the create path runs
    have hlow : ∀ q ∈ embs, sim (encode t) q.2 < MATCH_THRESHOLD :=
      find_similar_meal_none_low hfs
    by_cases hany : db.meals.any (fun p => p.2 = t)
    · -- the name already has a meal row
      have hsome : (db.meals.find? (fun p => p.2 = t)).isSome := by
        rw [List.find?_isSome]
        simpa using List.any_eq_true.mp hany
      obtain ⟨row, hrow⟩ := Option.isSome_iff_exists.mp hsome
      have hrowmem : row ∈ db.meals := List.mem_of_find?_eq_some hrow
      have hrow0 : row.1 ≠ 0 := hz1 row hrowmem
      have h1 : resolve_meal sim encode db embs t =
          (row.1, db, dictUpd row.1 (encode t) embs) := by
        simp [resolve_meal, hfs, hany, hrow]
      have h2nd : find_similar_meal sim encode (dictUpd row.1 (encode t) embs) t
          = (some row.1, 1) := find_similar_meal_after_upd row.1 hself hlow
      have h2 : resolve_meal sim encode db (dictUpd row.1 (encode t) embs) t =
          (row.1, db, dictUpd row.1 (encode t) embs) := by
        simp [resolve_meal, h2nd, hrow0]
      rw [h1]
      exact h2
    · -- a fresh meal row is inserted
      have hfindnone : db.meals.find? (fun p => p.2 = t) = none := by
        rw [List.find?_eq_none]
        intro x hx hpx
        exact hany (List.any_eq_true.mpr ⟨x, hx, hpx⟩)
      have hfind : (db.meals ++ [(db.next_meal_id, t)]).find? (fun p => p.2 = t)
          = some (db.next_meal_id, t) := by
        rw [find?_append_of_none _ hfindnone]
        simp [List.find?_cons]
      have h1 : resolve_meal sim encode db embs t =
          (db.next_meal_id,
            ⟨db.meals ++ [(db.next_meal_id, t)], db.next_meal_id + 1, db.days⟩,
            dictUpd db.next_meal_id (encode t) embs) := by
        simp [resolve_meal, hfs, hany, hfind]
      have h2nd : find_similar_meal sim encode
          (dictUpd db.next_meal_id (encode t) embs) t
          = (some db.next_meal_id, 1) :=
        find_similar_meal_after_upd db.next_meal_id hself hlow
      have h2 : resolve_meal sim encode
          ⟨db.meals ++ [(db.next_meal_id, t)], db.next_meal_id + 1, db.days⟩
          (dictUpd db.next_meal_id (encode t) embs) t =
          (db.next_meal_id,
            ⟨db.meals ++ [(db.next_meal_id, t)], db.next_meal_id + 1, db.days⟩,
            dictUpd db.next_meal_id (encode t) embs) := by
        simp [resolve_meal, h2nd, hnext]
      rw [h1]
      exact h2
  · -- a truthy match: both calls return it and change nothing
    have hi0 : i ≠ 0 := by
      rcases List.mem_map.mp (find_similar_meal_mem hfs) with ⟨q, hq, hq1⟩
      rw [← hq1]
      exact hz2 q hq
    have h1 : resolve_meal sim encode db embs t = (i, db, embs) := by
      simp [resolve_meal, hfs, hi0]
    rw [h1]
    exact h1

/-- Claim C5 (witness): the theorem applied to a fresh session resolving
`"Suppe"` twice against an empty store. -/
theorem resolve_meal_consistent_witness :
    (fun _ _ => (1 : ℚ)) ((fun _ => ([] : Vec)) "Suppe") ((fun _ => ([] : Vec)) "Suppe") = 1 ∧
      (⟨[], 1, []⟩ : DB).next_meal_id ≠ 0 ∧
      resolve_meal (fun _ _ => 1) (fun _ => [])
          (resolve_meal (fun _ _ => 1) (fun _ => []) ⟨[], 1, []⟩ [] "Suppe").2.1
          (resolve_meal (fun _ _ => 1) (fun _ => []) ⟨[], 1, []⟩ [] "Suppe").2.2 "Suppe" =
        resolve_meal (fun _ _ => 1) (fun _ => []) ⟨[], 1, []⟩ [] "Suppe" :=
  ⟨rfl, by decide,
    resolve_meal_consistent (fun _ _ => 1) (fun _ => []) ⟨[], 1, []⟩ [] "Suppe" rfl
      (by simp) (by simp) (by decide)⟩

end MensaLog
